import Mathlib

/-!
# cloudbase: the document table, its HTTP handlers, snapshots and recovery

A shallow embedding of `main.go`.  The process-wide variables `Data` and `paths`
become explicit arguments and results; the collaborators the program only calls
(`encoding/json`, `reflect`, the `afero` filesystem, the clock) appear as the values
they hand back.  A call that panics hands back the state it leaves, since `net/http`
recovers the panic of a handler and the process goes on.  Calls of `Push` that overlap
are runs of a schedule over the read and the write of its one statement.  Logging is
not modelled.
-/

namespace Cloudbase

/-! ## Data model -/

/-- What `JSONRead` stores behind `interface{}`: `nil`, `bool`, `float64`, `string`,
`[]interface{}` or `map[string]interface{}`.  The program never computes with a
number, so the `float64` payload is carried as the rational it denotes.  An object
lists its fields; a Go map holds each field name once and `lookupField` reads the
first occurrence. -/
inductive Value where
  | null
  | bool (b : Bool)
  | number (x : Rat)
  | string (s : String)
  | array (items : List Value)
  | object (fields : List (String × Value))

/-- A Go value of type `[]interface{}`: the nil slice, or a slice with elements
(possibly none). -/
inductive Slice where
  | nil
  | mk (elems : List Value)

/-- The elements a `range` over the slice visits, in order. -/
def Slice.toList : Slice → List Value
  | .nil => []
  | .mk elems => elems

/-- Go `append(s, d)`. -/
def Slice.append (s : Slice) (d : Value) : Slice :=
  .mk (s.toList ++ [d])

/-- How a call ended. -/
inductive Completion where
  | returned
  | panicked
  deriving DecidableEq

/-- The keys of a map that is not nil, each with its slice: `none` for a key the map
does not hold. -/
abbrev Entries := String → Option Slice

/-- The entries with `s` under `key`. -/
def store (e : Entries) (key : String) (s : Slice) : Entries :=
  fun k => if k = key then some s else e k

/-- The variable `Data`, a `map[string][]interface{}`: a map, or the nil map, which
`Decode(&Data)` leaves when the snapshot it reads holds the JSON value `null`. -/
inductive Table where
  | nilMap
  | map (entries : Entries)

/-- The lookup `v, ok := Data[key]`: `none` when `ok` is false, as for every key of
the nil map. -/
def Table.find : Table → String → Option Slice
  | .nilMap, _ => none
  | .map e, key => e key

/-- The value of `make(map[string][]interface{}, 0)`. -/
def emptyTable : Table := .map fun _ => none

/-- Go `Data[key]` read as an expression: the nil slice for a missing key. -/
def index (t : Table) (key : String) : Slice :=
  (t.find key).getD .nil

/-- Go `Data[key] = s`.  An assignment to an entry of the nil map panics. -/
def assign (t : Table) (key : String) (s : Slice) : Table × Completion :=
  match t with
  | .nilMap => (.nilMap, .panicked)
  | .map e => (.map (store e key s), .returned)

/-- The table once the elements of the slice held under `key` were written through
`Data[key][i] = ...` and the slice reads `s`: no assignment to the map takes place. -/
def overwrite (t : Table) (key : String) (s : Slice) : Table :=
  match t with
  | .nilMap => .nilMap
  | .map e => .map (store e key s)

/-! ## Push and Get -/

/-- The right-hand side of the statement of `Push`, `append(Data[key], d)`: the read
of the map and the extended slice, not yet stored. -/
def pushRead (t : Table) (key : String) (d : Value) : Slice :=
  (index t key).append d

/-- The assignment of the statement of `Push`, `Data[key] = s`, for the slice `s` its
right-hand side gave. -/
def pushWrite (t : Table) (key : String) (s : Slice) : Table × Completion :=
  assign t key s

/-- The function `Push`: `Data[key] = append(Data[key], d)`, the read followed by the
write.  On the nil map the write panics and `Data` stays nil. -/
def Push (t : Table) (key : String) (d : Value) : Table × Completion :=
  pushWrite t key (pushRead t key d)

/-- The function `Get`: `return Data[key]`. -/
def Get (t : Table) (key : String) : Slice :=
  index t key

/-! ## Modify -/

/-- Go map indexing by a string key, as `reflect.Value.MapIndex` performs it. -/
def lookupField (name : String) : List (String × Value) → Option Value
  | [] => none
  | (k, v) :: rest => if k = name then some v else lookupField name rest

/-- The condition of the `if` in `Modify`,
`reflect.ValueOf(v).MapIndex(reflect.ValueOf(name)).Interface() == reflect.ValueOf(value).Interface()`.
`none` is a run-time panic: `MapIndex` panics on a value whose kind is not `Map`
(the zero `reflect.Value` of a nil interface included), and `Interface` panics on the
zero `reflect.Value` that `MapIndex` returns for a missing field.  Otherwise two
interface values are compared, the right one a `string`: they are equal exactly when
the field holds a string with the same contents. -/
def fieldMatches (v : Value) (name value : String) : Option Bool :=
  match v with
  | .object fields =>
    match lookupField name fields with
    | none => none
    | some (.string s) => some (decide (s = value))
    | some _ => some false
  | _ => none

/-- The loop of `Modify` over the entries from the current index on: the entries
as the loop leaves them, and how it ended.  A panic stops the loop; the
assignments made before it stay, the entries from the panicking one on are as they
were. -/
def modifyLoop (name value : String) (change : Value) : List Value → List Value × Completion
  | [] => ([], .returned)
  | v :: rest =>
    match fieldMatches v name value with
    | none => (v :: rest, .panicked)
    | some true =>
      let r := modifyLoop name value change rest
      (change :: r.1, r.2)
    | some false =>
      let r := modifyLoop name value change rest
      (v :: r.1, r.2)

/-- The function `Modify`.  `range Data[key]` reads the map once; `Data[key][i] = change`
writes into the elements of the slice held under `key` and never into the map, so a
missing key stays missing, a nil slice stays nil and the nil map stays nil. -/
def Modify (t : Table) (key name value : String) (change : Value) : Table × Completion :=
  match t.find key with
  | none => (t, .returned)
  | some .nil => (t, .returned)
  | some (.mk elems) =>
    let r := modifyLoop name value change elems
    (overwrite t key (.mk r.1), r.2)

/-- Whether the entry is a mapping that holds the field `name`. -/
def hasField (name : String) : Value → Bool
  | .object fields => (lookupField name fields).isSome
  | _ => false

/-- Whether the entry is a mapping whose field `name` holds the string `value`. -/
def holdsString (name value : String) : Value → Bool
  | .object fields =>
    match lookupField name fields with
    | some (.string s) => decide (s = value)
    | _ => false
  | _ => false

/-- The field `name` of an entry that is a mapping holding it. -/
def fieldOf (name : String) : Value → Option Value
  | .object fields => lookupField name fields
  | _ => none

/-- What the loop of `Modify` leaves at the place of an entry it does not panic on. -/
def replaced (name value : String) (change v : Value) : Value :=
  if holdsString name value v then change else v

/-! ## The HTTP handlers -/

/-- What a handler left in its `http.ResponseWriter`: the status passed to
`WriteHeader`, if it was called, and the bytes passed to `Write`. -/
structure Response where
  status : Option Nat
  body : String

/-- The writer a handler receives. -/
def freshResponse : Response := ⟨none, ""⟩

/-- The result of `json.Marshal` on an `interface{}` that holds a `[]interface{}`.
The encoder of one element, `enc`, belongs to `encoding/json` and is an argument
(`none`: it reports an error).  The slice encoder writes `null` for a nil slice; otherwise it writes the
elements between `[` and `]`, separated by commas. -/
def marshal (enc : Value → Option String) : Slice → Option String
  | .nil => some "null"
  | .mk elems => (elems.mapM enc).map fun parts => "[" ++ ",".intercalate parts ++ "]"

/-- The function `JSONWrite`: marshal, give up on an error, else write the bytes.
The boolean says whether the returned error is nil. -/
def JSONWrite (enc : Value → Option String) (w : Response) (i : Slice) : Response × Bool :=
  match marshal enc i with
  | none => (w, false)
  | some b => (⟨w.status, w.body ++ b⟩, true)

/-- The handler `HandleGet`: `JSONWrite(w, Get(key))`, the returned error dropped. -/
def HandleGet (enc : Value → Option String) (t : Table) (key : String) : Response :=
  (JSONWrite enc freshResponse (Get t key)).1

/-- The answer of `HandlePush` and `HandleModify` to a body `JSONRead` cannot decode. -/
def badRequest : Response := ⟨some 400, "Bad Request"⟩

/-- The handler `HandlePush`.  `body` is what `JSONRead(r.Body)` returned, `none` for
an error.  A panic of `Push` leaves the handler with it. -/
def HandlePush (t : Table) (key : String) (body : Option Value) :
    (Table × Completion) × Response :=
  match body with
  | none => ((t, .returned), badRequest)
  | some data => (Push t key data, freshResponse)

/-- The handler `HandleModify`.  `body` is what `JSONRead(r.Body)` returned, `none`
for an error.  A panic of `Modify` leaves the handler with it. -/
def HandleModify (t : Table) (key name value : String) (body : Option Value) :
    (Table × Completion) × Response :=
  match body with
  | none => ((t, .returned), badRequest)
  | some change => (Modify t key name value change, freshResponse)

/-! ## Recovery at startup -/

/-- The variable `BackUpDir`. -/
def BackUpDir : String := ".cloudbase"

/-- The result of `filepath.Join(dir, name)` for a `name` that is one path element,
as the names of a directory listing and of `BackUp` are. -/
def joinPath (dir name : String) : String :=
  dir ++ "/" ++ name

/-- Whether `pat` occurs in the text as a contiguous block. -/
def hasInfix (pat : List Char) : List Char → Bool
  | [] => pat.isEmpty
  | c :: cs => pat.isPrefixOf (c :: cs) || hasInfix pat cs

/-- The test `strings.Contains(f.Name(), "cloudbase")`. -/
def containsMarker (name : String) : Bool :=
  hasInfix "cloudbase".toList name.toList

/-- The value of `strings.Split(f.Name(), ".")[0]`: the text before the first `.`,
all of it when there is none. -/
def firstSegment (name : String) : String :=
  String.mk (name.toList.takeWhile fun c => c ≠ '.')

/-- The value of a decimal digit. -/
def digitValue (c : Char) : Option Nat :=
  if '0' ≤ c ∧ c ≤ '9' then some (c.toNat - '0'.toNat) else none

/-- The number a run of decimal digits denotes, `none` when a character is no digit. -/
def parseDigits : List Char → Nat → Option Nat
  | [], acc => some acc
  | c :: cs, acc =>
    match digitValue c with
    | none => none
    | some d => parseDigits cs (acc * 10 + d)

/-- One or more decimal digits. -/
def parseUnsigned (ds : List Char) : Option Nat :=
  if ds.isEmpty then none else parseDigits ds 0

/-- The function `strconv.Atoi` with a 64-bit `int`: an optional sign, then one or
more decimal digits, the value within the range of `int64`; `none` is a returned
error. -/
def Atoi (s : String) : Option Int :=
  match s.toList with
  | '-' :: ds =>
    match parseUnsigned ds with
    | some n => if n ≤ 2 ^ 63 then some (-(n : Int)) else none
    | none => none
  | '+' :: ds =>
    match parseUnsigned ds with
    | some n => if n < 2 ^ 63 then some (n : Int) else none
    | none => none
  | ds =>
    match parseUnsigned ds with
    | some n => if n < 2 ^ 63 then some (n : Int) else none
    | none => none

/-- The variables of the loop over the directory listing in `main`. -/
structure Scan where
  latest : Int
  which : Nat
  paths : List String

/-- The loop `for i, f := range files` of `main`, from index `i` on.  The boolean is
false when `strconv.Atoi` failed and `main` returned from inside the loop. -/
def scanLoop : List String → Nat → Scan → Scan × Bool
  | [], _, sc => (sc, true)
  | f :: rest, i, sc =>
    if !containsMarker f then scanLoop rest (i + 1) sc
    else
      match Atoi (firstSegment f) with
      | none => (sc, false)
      | some time =>
        let sc1 : Scan := if time > sc.latest then ⟨time, i, sc.paths⟩ else sc
        scanLoop rest (i + 1) ⟨sc1.latest, sc1.which, sc1.paths ++ [joinPath BackUpDir f]⟩

/-- What the filesystem answers to `main`: `afero.Exists` on the snapshot directory
(`none`: an error), whether `MkdirAll` succeeds, the names `afero.ReadDir` lists
(`none`: an error), and for a path what `fs.Open` followed by
`json.NewDecoder(file).Decode(&Data)` does to the empty `Data`: `none` when the open
fails, else the table `Decode` leaves (the nil map for a file that holds `null`) and
whether its error is nil. -/
structure Disk where
  dirExists : Option Bool
  mkdirOk : Bool
  listing : Option (List String)
  decoded : String → Option (Table × Bool)

/-- Where `main` stands when recovery is over: the paths it passed to `fs.Open`,
the variables `Data` and `paths`, and whether it went on to register the routes and
serve (false: it returned or called `log.Fatalln`). -/
structure Boot where
  opened : List String
  Data : Table
  paths : List String
  serving : Bool

/-- The recovery part of `main`, up to `router := httprouter.New()`. -/
def main (d : Disk) : Boot :=
  match d.dirExists with
  | none => ⟨[], emptyTable, [], false⟩
  | some false => ⟨[], emptyTable, [], d.mkdirOk⟩
  | some true =>
    match d.listing with
    | none => ⟨[], emptyTable, [], true⟩
    | some [] => ⟨[], emptyTable, [], true⟩
    | some (f :: rest) =>
      match scanLoop (f :: rest) 0 ⟨0, 0, []⟩ with
      | (sc, false) => ⟨[], emptyTable, sc.paths, false⟩
      | (sc, true) =>
        match (f :: rest)[sc.which]? with
        | none => ⟨[], emptyTable, sc.paths, false⟩
        | some name =>
          match d.decoded (joinPath BackUpDir name) with
          | none => ⟨[joinPath BackUpDir name], emptyTable, sc.paths, false⟩
          | some (t, ok) => ⟨[joinPath BackUpDir name], t, sc.paths, ok⟩

/-! ## Snapshots and retention -/

/-- The variable `paths`, the paths of the files the filesystem holds, and the
arguments of the calls of `fs.Remove` so far, in order. -/
structure Snapshots where
  paths : List String
  files : List String
  removals : List String

/-- A successful `fs.Create(path)`: the file exists afterwards. -/
def createFile (files : List String) (path : String) : List String :=
  if path ∈ files then files else files ++ [path]

/-- One `fs.Remove(p)`.  It returns an error and removes nothing when the filesystem
denies it (`denied p`) or the file is absent; else the file is gone. -/
def removeFile (denied : String → Bool) (files : List String) (p : String) : List String :=
  if denied p then files else files.filter fun q => q ≠ p

/-- The `path` of `BackUp` at Unix time `now`:
`filepath.Join(BackUpDir, fmt.Sprintf("%d.cloudbase", now))`. -/
def snapshotPath (now : Int) : String :=
  joinPath BackUpDir (toString now ++ ".cloudbase")

/-- The function `BackUp` at Unix time `now`; `createOk` and `writeOk` say whether
`fs.Create` and `JSONWrite(file, Data)` succeed.  A failed write leaves the created
file behind and the registry as it was. -/
def BackUp (now : Int) (createOk writeOk : Bool) (s : Snapshots) : Snapshots :=
  let path := snapshotPath now
  if !createOk then s
  else if !writeOk then ⟨s.paths, createFile s.files path, s.removals⟩
  else ⟨s.paths ++ [path], createFile s.files path, s.removals⟩

/-- The function `Clean`: beyond 60 registered paths, `fs.Remove` on each path of
`paths[1:]`, an error only logged, then `paths = []string{}`. -/
def Clean (denied : String → Bool) (s : Snapshots) : Snapshots :=
  if s.paths.length > 60 then
    ⟨[], (s.paths.drop 1).foldl (removeFile denied) s.files, s.removals ++ s.paths.drop 1⟩
  else s

/-- The body of the loop of `BackUpInterval`, run once for each tick; a tick is the
Unix time at which its `BackUp` runs. -/
def BackUpInterval (denied : String → Bool) (ticks : List Int) (s : Snapshots) : Snapshots :=
  ticks.foldl (fun st now => Clean denied (BackUp now true true st)) s

/-! ## Calls of Push that overlap

`net/http` runs every handler in a goroutine of its own and `main.go` takes no lock, so
the read and the write of `Data[key] = append(Data[key], d)` of one call can have
steps of other calls between them. -/

/-- Where a call of `Push` stands: before its read of `Data[key]`, between the read
and the assignment (with the slice it is about to store), or after the assignment. -/
inductive Phase where
  | waiting
  | holding (s : Slice)
  | finished

/-- Whether the call is over. -/
def Phase.isFinished : Phase → Bool
  | .finished => true
  | _ => false

/-- One call of `Push` on the key: the value it pushes and where it stands. -/
structure Caller where
  value : Value
  phase : Phase

/-- The calls that push `values`, none started. -/
def callers (values : List Value) : List Caller :=
  values.map fun v => ⟨v, .waiting⟩

/-- The next step of caller `i`: the read of `Push` when it has not started, the
write of `Push` when it holds a slice (a panic ends the call and leaves `Data` as it
is), nothing when it is over or there is no such caller. -/
def stepAt (key : String) (i : Nat) (t : Table) (cs : List Caller) : Table × List Caller :=
  match cs[i]? with
  | none => (t, cs)
  | some c =>
    match c.phase with
    | .waiting => (t, cs.set i ⟨c.value, .holding (pushRead t key c.value)⟩)
    | .holding s => ((pushWrite t key s).1, cs.set i ⟨c.value, .finished⟩)
    | .finished => (t, cs)

/-- The run of an interleaving: the list names, step after step, the caller that moves. -/
def runSchedule (key : String) : List Nat → Table → List Caller → Table × List Caller
  | [], t, cs => (t, cs)
  | i :: rest, t, cs => runSchedule key rest (stepAt key i t cs).1 (stepAt key i t cs).2

/-- The interleaving in which the calls in `order` run one after another, each with
its write right after its read. -/
def oneAfterAnother : List Nat → List Nat
  | [] => []
  | i :: rest => i :: i :: oneAfterAnother rest

/-! ## Sample documents -/

/-- The document `{"id":1,"name":"a"}`. -/
def userA : Value := .object [("id", .number 1), ("name", .string "a")]

/-- The document `{"id":1,"name":"b"}`. -/
def userB : Value := .object [("id", .number 1), ("name", .string "b")]

/-- The document `{"id":"5"}`. -/
def idFiveString : Value := .object [("id", .string "5")]

/-- The document `{"id":5}`. -/
def idFiveNumber : Value := .object [("id", .number 5)]

/-- The document `{"name":"a"}`, a mapping without the field `id`. -/
def noId : Value := .object [("name", .string "a")]

/-- A table that holds `{"id":"5"}`, `{"id":5}`, `{"id":"5"}` under `users`. -/
def mixedIds : Table :=
  .map (store (fun _ => none) "users" (.mk [idFiveString, idFiveNumber, idFiveString]))

/-- A table that holds `{"id":"5"}`, `7`, `{"id":"5"}` under `users`. -/
def withNumberEntry : Table :=
  .map (store (fun _ => none) "users" (.mk [idFiveString, .number 7, idFiveString]))

/-- A table that holds `{"id":"5"}`, `{"name":"a"}`, `{"id":"5"}` under `users`. -/
def withFieldlessEntry : Table :=
  .map (store (fun _ => none) "users" (.mk [idFiveString, noId, idFiveString]))

/-- A table that holds `{"id":1,"name":"a"}` under `users`. -/
def oneUser : Table :=
  .map (store (fun _ => none) "users" (.mk [userA]))

/-- A snapshot directory that lists `100.cloudbase` and `200.cloudbase`; the first
decodes to the empty table, the second to a table with one document under `users`. -/
def twoSnapshots : Disk :=
  ⟨some true, true, some ["100.cloudbase", "200.cloudbase"], fun path =>
    if path = ".cloudbase/200.cloudbase" then some (oneUser, true)
    else if path = ".cloudbase/100.cloudbase" then some (emptyTable, true)
    else none⟩

/-- A snapshot directory that lists the empty file `.gitkeep` and a snapshot
`0.cloudbase`; decoding an empty file fails with `io.EOF`. -/
def epochSnapshot : Disk :=
  ⟨some true, true, some [".gitkeep", "0.cloudbase"], fun path =>
    if path = ".cloudbase/0.cloudbase" then some (oneUser, true)
    else if path = ".cloudbase/.gitkeep" then some (emptyTable, false)
    else none⟩

/-- A snapshot directory that lists only the empty file `.gitkeep`. -/
def onlyGitkeep : Disk :=
  ⟨some true, true, some [".gitkeep"], fun path =>
    if path = ".cloudbase/.gitkeep" then some (emptyTable, false) else none⟩

/-- A snapshot directory that lists only `notes.json`, a file that holds the JSON
object `{"users":[{"id":1,"name":"a"}]}`. -/
def onlyNotes : Disk :=
  ⟨some true, true, some ["notes.json"], fun path =>
    if path = ".cloudbase/notes.json" then some (oneUser, true) else none⟩

/-- A snapshot directory that lists only `7.cloudbase`, a file that holds the JSON
value `null`: `Decode` returns a nil error and leaves `Data` the nil map. -/
def nullSnapshot : Disk :=
  ⟨some true, true, some ["7.cloudbase"], fun path =>
    if path = ".cloudbase/7.cloudbase" then some (.nilMap, true) else none⟩

/-- The Unix times `1, 2, ..., n`, one for each tick. -/
def ticksUpTo (n : Nat) : List Int :=
  (List.range n).map fun i => (i : Int) + 1

/-- No snapshot yet: an empty registry and an empty snapshot directory. -/
def noSnapshots : Snapshots := ⟨[], [], []⟩

/-- A registry of 61 paths in which the first two `BackUp` calls ran within the same
second, so that the path at index 0 is also the path at index 1; the directory holds
the 60 files. -/
def repeatedFirst : Snapshots :=
  ⟨snapshotPath 1 :: snapshotPath 1 :: (List.range 59).map (fun i => snapshotPath ((i : Int) + 2)),
    snapshotPath 1 :: (List.range 59).map (fun i => snapshotPath ((i : Int) + 2)), []⟩

/-! ## Lemmas on the table -/

theorem Get_of_find {t : Table} {key : String} {s : Slice} (h : t.find key = some s) :
    Get t key = s := by
  simp [Get, index, h]

theorem find_overwrite_same {t : Table} {key : String} {s0 : Slice} (s : Slice)
    (h : t.find key = some s0) : (overwrite t key s).find key = some s := by
  cases t with
  | nilMap => simp [Table.find] at h
  | map e => simp [overwrite, Table.find, store]

theorem Get_overwrite_same {t : Table} {key : String} {s0 : Slice} (s : Slice)
    (h : t.find key = some s0) : Get (overwrite t key s) key = s :=
  Get_of_find (find_overwrite_same s h)

theorem find_overwrite_other (t : Table) (key k : String) (s : Slice) (h : k ≠ key) :
    (overwrite t key s).find k = t.find k := by
  cases t with
  | nilMap => rfl
  | map e => simp [overwrite, Table.find, store, h]

theorem overwrite_self {t : Table} {key : String} {s : Slice} (h : t.find key = some s) :
    overwrite t key s = t := by
  cases t with
  | nilMap => rfl
  | map e =>
    simp only [Table.find] at h
    simp only [overwrite, Table.map.injEq]
    funext k
    by_cases hk : k = key
    · subst hk; simp [store, h]
    · simp [store, hk]

theorem Push_map (e : Entries) (key : String) (d : Value) :
    Push (.map e) key d
      = (.map (store e key ((index (.map e) key).append d)), Completion.returned) :=
  rfl

theorem Get_Push_map_same (e : Entries) (key : String) (d : Value) :
    Get (Push (.map e) key d).1 key = Slice.mk ((Get (.map e) key).toList ++ [d]) := by
  simp [Push_map, Get, index, Table.find, store, Slice.append]

theorem find_Push_map_other (e : Entries) (key k : String) (d : Value) (h : k ≠ key) :
    (Push (.map e) key d).1.find k = (Table.map e).find k := by
  simp [Push_map, Table.find, store, h]

/-! ## Lemmas on the loop of Modify -/

theorem fieldMatches_of_hasField {v : Value} {name : String} (value : String)
    (h : hasField name v = true) :
    fieldMatches v name value = some (holdsString name value v) := by
  cases v with
  | object fields =>
    simp only [hasField] at h
    cases hl : lookupField name fields with
    | none => simp [hl] at h
    | some w => cases w <;> simp [fieldMatches, hl, holdsString]
  | null => simp [hasField] at h
  | bool b => simp [hasField] at h
  | number x => simp [hasField] at h
  | string s => simp [hasField] at h
  | array items => simp [hasField] at h

theorem fieldMatches_none_of_not_hasField {v : Value} {name : String} (value : String)
    (h : hasField name v = false) :
    fieldMatches v name value = none := by
  cases v with
  | object fields =>
    simp only [hasField] at h
    cases hl : lookupField name fields with
    | none => simp [fieldMatches, hl]
    | some w => simp [hl] at h
  | null => rfl
  | bool b => rfl
  | number x => rfl
  | string s => rfl
  | array items => rfl

theorem modifyLoop_of_hasField (name value : String) (change : Value) (elems : List Value)
    (h : ∀ v ∈ elems, hasField name v = true) :
    modifyLoop name value change elems =
      (elems.map (replaced name value change), Completion.returned) := by
  induction elems with
  | nil => rfl
  | cons v rest ih =>
    have hv : hasField name v = true := h v (List.mem_cons_self v rest)
    have hrest : ∀ w ∈ rest, hasField name w = true :=
      fun w hw => h w (List.mem_cons_of_mem v hw)
    have ihr := ih hrest
    cases hs : holdsString name value v <;>
      simp [modifyLoop, fieldMatches_of_hasField value hv, hs, ihr, replaced]

theorem modifyLoop_panics (name value : String) (change : Value) (elems : List Value)
    (h : ∃ v ∈ elems, hasField name v = false) :
    (modifyLoop name value change elems).2 = Completion.panicked := by
  induction elems with
  | nil => simp at h
  | cons v rest ih =>
    cases hv : hasField name v with
    | false => simp [modifyLoop, fieldMatches_none_of_not_hasField value hv]
    | true =>
      have hrest : ∃ w ∈ rest, hasField name w = false := by
        obtain ⟨w, hw, hwf⟩ := h
        rcases List.mem_cons.mp hw with rfl | hw
        · rw [hv] at hwf; exact absurd hwf (by simp)
        · exact ⟨w, hw, hwf⟩
      cases hs : holdsString name value v <;>
        simp [modifyLoop, fieldMatches_of_hasField value hv, hs, ih hrest]

theorem map_replaced_of_no_match (name value : String) (change : Value) (elems : List Value)
    (h : ∀ v ∈ elems, holdsString name value v = false) :
    elems.map (replaced name value change) = elems := by
  induction elems with
  | nil => rfl
  | cons v rest ih =>
    have hv : holdsString name value v = false := h v (List.mem_cons_self v rest)
    have hrest := ih (fun w hw => h w (List.mem_cons_of_mem v hw))
    simp [replaced, hv, hrest]

theorem Modify_of_hasField (t : Table) (key name value : String) (change : Value)
    (h : ∀ v ∈ (Get t key).toList, hasField name v = true) :
    (Modify t key name value change).2 = Completion.returned ∧
      (Get (Modify t key name value change).1 key).toList
        = (Get t key).toList.map (replaced name value change) := by
  cases hk : t.find key with
  | none => simp [Modify, hk, Get, index, Slice.toList]
  | some s =>
    cases s with
    | nil => simp [Modify, hk, Get, index, Slice.toList]
    | mk elems =>
      have hall : ∀ v ∈ elems, hasField name v = true := by
        simpa [Get, index, hk, Slice.toList] using h
      have hloop := modifyLoop_of_hasField name value change elems hall
      have hM : Modify t key name value change
          = (overwrite t key (.mk (elems.map (replaced name value change))),
              Completion.returned) := by
        simp [Modify, hk, hloop]
      rw [hM]
      refine ⟨rfl, ?_⟩
      rw [Get_overwrite_same _ hk, Get_of_find hk]
      simp [Slice.toList]

theorem holdsString_of_fieldOf_string {name value : String} {v : Value}
    (h : fieldOf name v = some (.string value)) : holdsString name value v = true := by
  cases v <;> simp [fieldOf] at h
  simp [holdsString, h]

theorem holdsString_of_fieldOf_number {name value : String} {v : Value} {x : Rat}
    (h : fieldOf name v = some (.number x)) : holdsString name value v = false := by
  cases v <;> simp [fieldOf] at h
  simp [holdsString, h]

/-! ## Push and Get: claim C1 -/

/-- C1 as stated fails on the nil map: recovery from a snapshot that holds `null`
leaves `Data` nil and goes on to serve, `Push` then panics at the assignment, and after
two calls `Get` still returns the nil slice, not the two values. -/
theorem push_on_nil_map_panics :
    (main nullSnapshot).opened = [".cloudbase/7.cloudbase"] ∧
      (main nullSnapshot).serving = true ∧
      (main nullSnapshot).Data = Table.nilMap ∧
      (Push (main nullSnapshot).Data "users" userA).2 = Completion.panicked ∧
      (Get (Push (Push (main nullSnapshot).Data "users" userA).1 "users" userB).1
        "users").toList = [] ∧
      (Get (main nullSnapshot).Data "users").toList ++ [userA, userB] ≠ [] := by
  refine ⟨by decide, by decide, rfl, rfl, rfl, ?_⟩
  simp

/-- C1 amended: for every table that is not the nil map, `Push(k, v1)` and then
`Push(k, v2)` both return, after them `Get(k)` is the sequence stored under `k` before
the two calls (empty when `k` was absent) followed by `v1` and then `v2`, and every
other key holds what it held before. -/
theorem push_push_get (t : Table) (k : String) (v1 v2 : Value) (h : t ≠ Table.nilMap) :
    (Push t k v1).2 = Completion.returned ∧
      (Push (Push t k v1).1 k v2).2 = Completion.returned ∧
      Get (Push (Push t k v1).1 k v2).1 k = Slice.mk ((Get t k).toList ++ [v1, v2]) ∧
      (t.find k = none → (Get t k).toList = []) ∧
      ∀ k2 : String, k2 ≠ k →
        (Push (Push t k v1).1 k v2).1.find k2 = t.find k2 ∧
        Get (Push (Push t k v1).1 k v2).1 k2 = Get t k2 := by
  cases t with
  | nilMap => exact absurd rfl h
  | map e =>
    refine ⟨rfl, rfl, ?_, ?_, ?_⟩
    · rw [Push_map e k v1, Get_Push_map_same]
      rw [show Get (Table.map (store e k ((index (.map e) k).append v1))) k
          = Slice.mk ((Get (.map e) k).toList ++ [v1]) from Get_Push_map_same e k v1]
      simp [Slice.toList]
    · intro hk
      simp [Get, index, hk, Slice.toList]
    · intro k2 hk2
      have hf : (Push (Push (.map e) k v1).1 k v2).1.find k2 = (Table.map e).find k2 := by
        rw [Push_map e k v1, find_Push_map_other _ k k2 v2 hk2]
        simp [Table.find, store, hk2]
      exact ⟨hf, by simp [Get, index, hf]⟩

/-- C1 amended, at the empty table `main` starts with. -/
theorem push_push_get_witness :
    emptyTable ≠ Table.nilMap ∧
      Get (Push (Push emptyTable "users" userA).1 "users" userB).1 "users"
        = Slice.mk ((Get emptyTable "users").toList ++ [userA, userB]) :=
  ⟨by simp [emptyTable],
    (push_push_get emptyTable "users" userA userB (by simp [emptyTable])).2.2.1⟩

/-! ## Modify: claim C2 -/

/-- C2: when every entry under `key` is a mapping that holds the field `name`,
`Modify(key, name, value, change)` returns, keeps the length of the sequence, puts
`change` at the index of every entry whose field `name` holds the string `value`, keeps
every other entry at its index, keeps every other key, creates no key, and leaves the
whole table as it was on an unknown key and on a key with no match. -/
theorem modify_replaces_all (t : Table) (key name value : String) (change : Value)
    (h : ∀ v ∈ (Get t key).toList, hasField name v = true) :
    (Modify t key name value change).2 = Completion.returned ∧
      (Get (Modify t key name value change).1 key).toList.length
        = (Get t key).toList.length ∧
      (∀ (i : Nat) (v : Value), (Get t key).toList[i]? = some v →
        (holdsString name value v = true →
          (Get (Modify t key name value change).1 key).toList[i]? = some change) ∧
        (holdsString name value v = false →
          (Get (Modify t key name value change).1 key).toList[i]? = some v)) ∧
      (∀ k2 : String, k2 ≠ key →
        (Modify t key name value change).1.find k2 = t.find k2) ∧
      ((Modify t key name value change).1.find key = none ↔ t.find key = none) ∧
      (t.find key = none → (Modify t key name value change).1 = t) ∧
      ((∀ v ∈ (Get t key).toList, holdsString name value v = false) →
        (Modify t key name value change).1 = t) := by
  cases hk : t.find key with
  | none => simp [Modify, hk, Get, index, Slice.toList]
  | some s =>
    cases s with
    | nil => simp [Modify, hk, Get, index, Slice.toList]
    | mk elems =>
      have hall : ∀ v ∈ elems, hasField name v = true := by
        simpa [Get, index, hk, Slice.toList] using h
      have hloop := modifyLoop_of_hasField name value change elems hall
      have hM : Modify t key name value change
          = (overwrite t key (.mk (elems.map (replaced name value change))),
              Completion.returned) := by
        simp [Modify, hk, hloop]
      rw [hM]
      refine ⟨rfl, ?_, ?_, ?_, ?_, ?_, ?_⟩
      · rw [Get_overwrite_same _ hk, Get_of_find hk]
        simp [Slice.toList]
      · intro i v hv
        have hv2 : elems[i]? = some v := by
          simpa [Get, index, hk, Slice.toList] using hv
        rw [Get_overwrite_same _ hk]
        constructor
        · intro hs
          simp [Slice.toList, List.getElem?_map, hv2, replaced, hs]
        · intro hs
          simp [Slice.toList, List.getElem?_map, hv2, replaced, hs]
      · intro k2 hk2
        exact find_overwrite_other t key k2 _ hk2
      · simp [find_overwrite_same _ hk]
      · intro hnone
        simp at hnone
      · intro hno
        have hno2 : ∀ v ∈ elems, holdsString name value v = false := by
          simpa [Get, index, hk, Slice.toList] using hno
        show overwrite t key (.mk (elems.map (replaced name value change))) = t
        rw [map_replaced_of_no_match name value change elems hno2]
        exact overwrite_self hk

/-- C2 at a concrete table: `{"id":"5"}`, `{"id":5}`, `{"id":"5"}` under `users`, every
entry a mapping with the field `id`. -/
theorem modify_replaces_all_witness :
    (∀ v ∈ (Get mixedIds "users").toList, hasField "id" v = true) ∧
      (Modify mixedIds "users" "id" "5" userB).2 = Completion.returned ∧
      (Get (Modify mixedIds "users" "id" "5" userB).1 "users").toList.length
        = (Get mixedIds "users").toList.length :=
  ⟨by decide,
    (modify_replaces_all mixedIds "users" "id" "5" userB (by decide)).1,
    (modify_replaces_all mixedIds "users" "id" "5" userB (by decide)).2.1⟩

/-! ## Modify against a numeric field: claim C3 -/

/-- C3 as stated fails: after `POST /users` with `{"id":1,"name":"a"}` and `PUT /users/id/1`
with `{"id":1,"name":"b"}`, `Get("users")` is still `[{"id":1,"name":"a"}]`, and an entry
`{"id":5}` is not replaced by `Modify(k, "id", "5", R)`. -/
theorem put_keeps_numeric_id :
    Get (HandleModify (HandlePush emptyTable "users" (some userA)).1.1 "users" "id" "1"
        (some userB)).1.1 "users" = Slice.mk [userA] ∧
      Slice.mk [userA] ≠ Slice.mk [userB] ∧
      (Get (Modify mixedIds "users" "id" "5" userB).1 "users").toList
        = [userB, idFiveNumber, userB] := by
  refine ⟨rfl, ?_, rfl⟩
  simp [userA, userB]

/-- C3 amended: when every entry under `k` is a mapping that holds `id`,
`Modify(k, "id", "5", R)` returns and puts `R` at the index of every entry whose `id` is
the JSON string `"5"`, and keeps at its index every entry whose `id` is a JSON number,
the number 5 included; from the empty table, `Push("users", {"id":1,"name":"a"})` then
`Modify("users", "id", "1", {"id":1,"name":"b"})` leaves `Get("users")` equal to
`[{"id":1,"name":"a"}]`. -/
theorem modify_id_string_only (t : Table) (k : String) (R : Value)
    (h : ∀ v ∈ (Get t k).toList, hasField "id" v = true) :
    (Modify t k "id" "5" R).2 = Completion.returned ∧
      (∀ (i : Nat) (v : Value), (Get t k).toList[i]? = some v →
        (fieldOf "id" v = some (.string "5") →
          (Get (Modify t k "id" "5" R).1 k).toList[i]? = some R) ∧
        (∀ x : Rat, fieldOf "id" v = some (.number x) →
          (Get (Modify t k "id" "5" R).1 k).toList[i]? = some v)) ∧
      Get (Modify (Push emptyTable "users" userA).1 "users" "id" "1" userB).1 "users"
        = Slice.mk [userA] := by
  obtain ⟨hret, hlist⟩ := Modify_of_hasField t k "id" "5" R h
  refine ⟨hret, ?_, rfl⟩
  intro i v hv
  rw [hlist]
  constructor
  · intro hs
    simp [List.getElem?_map, hv, replaced, holdsString_of_fieldOf_string hs]
  · intro x hx
    simp [List.getElem?_map, hv, replaced, holdsString_of_fieldOf_number hx]

/-- C3 amended, at the table that holds `{"id":"5"}`, `{"id":5}`, `{"id":"5"}`. -/
theorem modify_id_string_only_witness :
    (∀ v ∈ (Get mixedIds "users").toList, hasField "id" v = true) ∧
      (Modify mixedIds "users" "id" "5" userB).2 = Completion.returned :=
  ⟨by decide, (modify_id_string_only mixedIds "users" userB (by decide)).1⟩

/-! ## Modify on entries it cannot probe: claim C4 -/

/-- C4 fails on the code: `Modify` panics at the first entry that is not a mapping
(here the number `7`) and at the first mapping without the field (here `{"name":"a"}`);
the matching entry before it is replaced, the matching entry after it is not. -/
theorem modify_panics_on_unprobed_entry :
    (Modify withNumberEntry "users" "id" "5" userB).2 = Completion.panicked ∧
      (Get (Modify withNumberEntry "users" "id" "5" userB).1 "users").toList
        = [userB, .number 7, idFiveString] ∧
      (Modify withFieldlessEntry "users" "id" "5" userB).2 = Completion.panicked ∧
      (Get (Modify withFieldlessEntry "users" "id" "5" userB).1 "users").toList
        = [userB, noId, idFiveString] :=
  ⟨rfl, rfl, rfl, rfl⟩

/-! ## GET on a key never written: claim C5 -/

/-- C5 as stated fails: on the empty table the body `HandleGet` writes for `users` is
`null`, not `[]`. -/
theorem get_unknown_key_body_not_brackets :
    (HandleGet (fun _ => none) emptyTable "users").body = "null" ∧
      (HandleGet (fun _ => none) emptyTable "users").body ≠ "[]" := by
  refine ⟨rfl, ?_⟩
  decide

/-- C5 amended: for every table and every key the table does not hold, `JSONWrite`
applied to `Get(key)` returns a nil error, and the body `HandleGet` writes is the JSON
literal `null`, with no status set. -/
theorem get_unknown_key_writes_null (enc : Value → Option String) (t : Table) (key : String)
    (h : t.find key = none) :
    (JSONWrite enc freshResponse (Get t key)).2 = true ∧
      (HandleGet enc t key).body = "null" ∧
      (HandleGet enc t key).status = none := by
  have hg : Get t key = Slice.nil := by simp [Get, index, h]
  simp [HandleGet, JSONWrite, hg, marshal, freshResponse]

/-- C5 amended, at the empty table. -/
theorem get_unknown_key_writes_null_witness :
    emptyTable.find "users" = none ∧
      (HandleGet (fun _ => none) emptyTable "users").body = "null" :=
  ⟨rfl, (get_unknown_key_writes_null (fun _ => none) emptyTable "users" rfl).2.1⟩

/-! ## Recovery: claim C6 -/

theorem scanLoop_spec (rest : List String) :
    ∀ (i : Nat) (sc : Scan),
      (∀ f ∈ rest, containsMarker f = true → (Atoi (firstSegment f)).isSome = true) →
      (scanLoop rest i sc).2 = true ∧
      sc.latest ≤ (scanLoop rest i sc).1.latest ∧
      (∀ g ∈ rest, containsMarker g = true → ∀ m : Int, Atoi (firstSegment g) = some m →
        m ≤ (scanLoop rest i sc).1.latest) ∧
      (((scanLoop rest i sc).1.latest = sc.latest ∧ (scanLoop rest i sc).1.which = sc.which) ∨
        ∃ (j : Nat) (g : String), (scanLoop rest i sc).1.which = i + j ∧ rest[j]? = some g ∧
          containsMarker g = true ∧
          Atoi (firstSegment g) = some (scanLoop rest i sc).1.latest ∧
          sc.latest < (scanLoop rest i sc).1.latest) := by
  induction rest with
  | nil =>
    intro i sc _
    simp [scanLoop]
  | cons f rest ih =>
    intro i sc hparse
    have hrest : ∀ g ∈ rest, containsMarker g = true → (Atoi (firstSegment g)).isSome = true :=
      fun g hg => hparse g (List.mem_cons_of_mem f hg)
    cases hf : containsMarker f with
    | false =>
      have hstep : scanLoop (f :: rest) i sc = scanLoop rest (i + 1) sc := by
        simp [scanLoop, hf]
      rw [hstep]
      obtain ⟨h1, h2, h3, h4⟩ := ih (i + 1) sc hrest
      refine ⟨h1, h2, ?_, ?_⟩
      · intro g hg hm m hgm
        rcases List.mem_cons.mp hg with rfl | hg
        · rw [hf] at hm; exact absurd hm (by simp)
        · exact h3 g hg hm m hgm
      · rcases h4 with h4 | ⟨j, g, hw, hj, hm, ha, hlt⟩
        · exact Or.inl h4
        · exact Or.inr ⟨j + 1, g, by omega, by simpa using hj, hm, ha, hlt⟩
    | true =>
      have hsome := hparse f (List.mem_cons_self f rest) hf
      obtain ⟨time, htime⟩ := Option.isSome_iff_exists.mp hsome
      by_cases hgt : time > sc.latest
      · have hstep : scanLoop (f :: rest) i sc
            = scanLoop rest (i + 1) ⟨time, i, sc.paths ++ [joinPath BackUpDir f]⟩ := by
          simp [scanLoop, hf, htime, hgt]
        rw [hstep]
        obtain ⟨h1, h2, h3, h4⟩ :=
          ih (i + 1) ⟨time, i, sc.paths ++ [joinPath BackUpDir f]⟩ hrest
        simp only at h2 h4
        refine ⟨h1, by omega, ?_, ?_⟩
        · intro g hg hm m hgm
          rcases List.mem_cons.mp hg with rfl | hg
          · rw [htime] at hgm
            cases hgm
            exact h2
          · exact h3 g hg hm m hgm
        · right
          rcases h4 with ⟨hl, hw⟩ | ⟨j, g, hw, hj, hm, ha, hlt⟩
          · exact ⟨0, f, by simpa using hw, by simp, hf, by rw [hl]; exact htime,
              by rw [hl]; exact hgt⟩
          · exact ⟨j + 1, g, by omega, by simpa using hj, hm, ha, by omega⟩
      · have hstep : scanLoop (f :: rest) i sc
            = scanLoop rest (i + 1) ⟨sc.latest, sc.which, sc.paths ++ [joinPath BackUpDir f]⟩ := by
          simp [scanLoop, hf, htime, hgt]
        rw [hstep]
        obtain ⟨h1, h2, h3, h4⟩ :=
          ih (i + 1) ⟨sc.latest, sc.which, sc.paths ++ [joinPath BackUpDir f]⟩ hrest
        simp only at h2 h4
        refine ⟨h1, h2, ?_, ?_⟩
        · intro g hg hm m hgm
          rcases List.mem_cons.mp hg with rfl | hg
          · rw [htime] at hgm
            cases hgm
            omega
          · exact h3 g hg hm m hgm
        · rcases h4 with h4 | ⟨j, g, hw, hj, hm, ha, hlt⟩
          · exact Or.inl h4
          · exact Or.inr ⟨j + 1, g, by omega, by simpa using hj, hm, ha, hlt⟩

theorem main_of_scan (d : Disk) (files : List String) (name : String)
    (hdir : d.dirExists = some true) (hls : d.listing = some files)
    (hscan : (scanLoop files 0 ⟨0, 0, []⟩).2 = true)
    (hname : files[(scanLoop files 0 ⟨0, 0, []⟩).1.which]? = some name) :
    (main d).opened = [joinPath BackUpDir name] ∧
      ∀ (t : Table) (ok : Bool), d.decoded (joinPath BackUpDir name) = some (t, ok) →
        (main d).Data = t ∧ (main d).serving = ok := by
  cases files with
  | nil => simp at hname
  | cons f rest =>
    have hpair : scanLoop (f :: rest) 0 ⟨0, 0, []⟩
        = ((scanLoop (f :: rest) 0 ⟨0, 0, []⟩).1, true) := by
      rw [← hscan]
    constructor
    · unfold main
      simp only [hdir, hls]
      rw [hpair]
      simp only [hname]
      cases d.decoded (joinPath BackUpDir name) with
      | none => rfl
      | some r => rfl
    · intro t ok hdec
      unfold main
      simp only [hdir, hls]
      rw [hpair]
      simp only [hname, hdec, and_self]

/-- C6 as stated fails: the listing `.gitkeep`, `0.cloudbase` holds a file with the
marker, the first segment of every such name parses as an integer, and `main` opens
`.gitkeep`, a file without the marker. -/
theorem recovery_opens_unmarked_file :
    (∃ f ∈ [".gitkeep", "0.cloudbase"], containsMarker f = true) ∧
      (∀ f ∈ [".gitkeep", "0.cloudbase"], containsMarker f = true →
        (Atoi (firstSegment f)).isSome = true) ∧
      epochSnapshot.listing = some [".gitkeep", "0.cloudbase"] ∧
      (main epochSnapshot).opened = [".cloudbase/.gitkeep"] ∧
      containsMarker ".gitkeep" = false := by
  decide

/-- C6 amended: when the snapshot directory exists, the first segment of every listed
name with the marker `cloudbase` parses as an integer, and one of them parses as a
positive integer, the one file `main` opens is a listed file with the marker whose
timestamp is the greatest among the listed files with the marker, and `Data` is what
decoding that file leaves. -/
theorem recovery_opens_latest (d : Disk) (files : List String)
    (hdir : d.dirExists = some true) (hls : d.listing = some files)
    (hparse : ∀ f ∈ files, containsMarker f = true → (Atoi (firstSegment f)).isSome = true)
    (hpos : ∃ f ∈ files, containsMarker f = true ∧
      ∃ n : Int, Atoi (firstSegment f) = some n ∧ 0 < n) :
    ∃ (f : String) (n : Int), f ∈ files ∧ containsMarker f = true ∧
      Atoi (firstSegment f) = some n ∧
      (∀ g ∈ files, containsMarker g = true → ∀ m : Int, Atoi (firstSegment g) = some m →
        m ≤ n) ∧
      (main d).opened = [joinPath BackUpDir f] ∧
      ∀ (t : Table) (ok : Bool), d.decoded (joinPath BackUpDir f) = some (t, ok) →
        (main d).Data = t ∧ (main d).serving = ok := by
  obtain ⟨h1, _, h3, h4⟩ := scanLoop_spec files 0 ⟨0, 0, []⟩ hparse
  obtain ⟨f0, hf0, hm0, n0, hn0, hpos0⟩ := hpos
  have hle := h3 f0 hf0 hm0 n0 hn0
  rcases h4 with ⟨hl, _⟩ | ⟨j, g, hw, hj, hm, ha, _⟩
  · simp only at hl
    omega
  · have hname : files[(scanLoop files 0 ⟨0, 0, []⟩).1.which]? = some g := by
      rw [hw, Nat.zero_add]; exact hj
    obtain ⟨ho, hd⟩ := main_of_scan d files g hdir hls h1 hname
    exact ⟨g, _, List.getElem?_mem hj, hm, ha, h3, ho, hd⟩

/-- C6 amended, at the listing `100.cloudbase`, `200.cloudbase`: `main` opens
`200.cloudbase` and `Data` is its content. -/
theorem recovery_opens_latest_witness :
    (∃ (f : String) (n : Int), f ∈ ["100.cloudbase", "200.cloudbase"] ∧
        containsMarker f = true ∧ Atoi (firstSegment f) = some n ∧
        (∀ g ∈ ["100.cloudbase", "200.cloudbase"], containsMarker g = true →
          ∀ m : Int, Atoi (firstSegment g) = some m → m ≤ n) ∧
        (main twoSnapshots).opened = [joinPath BackUpDir f] ∧
        ∀ (t : Table) (ok : Bool), twoSnapshots.decoded (joinPath BackUpDir f) = some (t, ok) →
          (main twoSnapshots).Data = t ∧ (main twoSnapshots).serving = ok) ∧
      (main twoSnapshots).opened = [".cloudbase/200.cloudbase"] ∧
      (main twoSnapshots).Data = oneUser :=
  ⟨recovery_opens_latest twoSnapshots ["100.cloudbase", "200.cloudbase"] rfl rfl
      (by decide) ⟨"200.cloudbase", by decide, by decide, 200, by decide, by decide⟩,
    by decide, rfl⟩

/-! ## Recovery without a snapshot: claim C7 -/

/-- C7 fails on the code when the directory holds only other files: with the single
empty file `.gitkeep`, `main` opens `.cloudbase/.gitkeep`, decoding fails and `main`
returns without serving; with the single file `notes.json` that holds a JSON object,
`main` opens it and `Data` is its content, not the empty table.  The part on the empty
directory holds: nothing is opened, `Data` and `paths` are empty, `main` serves. -/
theorem recovery_opens_stray_file :
    (∀ f ∈ [".gitkeep"], containsMarker f = false) ∧
      (main onlyGitkeep).opened = [".cloudbase/.gitkeep"] ∧
      (main onlyGitkeep).serving = false ∧
      (∀ f ∈ ["notes.json"], containsMarker f = false) ∧
      (main onlyNotes).opened = [".cloudbase/notes.json"] ∧
      (main onlyNotes).Data.find "users" = some (Slice.mk [userA]) ∧
      (∀ decoded : String → Option (Table × Bool),
        (main ⟨some true, true, some [], decoded⟩).opened = [] ∧
        (main ⟨some true, true, some [], decoded⟩).Data = emptyTable ∧
        (main ⟨some true, true, some [], decoded⟩).paths = [] ∧
        (main ⟨some true, true, some [], decoded⟩).serving = true) := by
  refine ⟨by decide, by decide, by decide, by decide, by decide, rfl, ?_⟩
  intro decoded
  exact ⟨rfl, rfl, rfl, rfl⟩

/-! ## Retention: claims C8 and C9 -/

theorem mem_removeFile (denied : String → Bool) (files : List String) (p q : String) :
    q ∈ removeFile denied files p ↔ q ∈ files ∧ ¬ (q = p ∧ denied p = false) := by
  unfold removeFile
  cases hd : denied p <;> simp

theorem mem_foldl_removeFile (denied : String → Bool) (L : List String) :
    ∀ (files : List String) (q : String),
      q ∈ L.foldl (removeFile denied) files ↔ q ∈ files ∧ ¬ (q ∈ L ∧ denied q = false) := by
  induction L with
  | nil => intro files q; simp
  | cons p L ih =>
    intro files q
    rw [List.foldl_cons, ih, mem_removeFile]
    constructor
    · rintro ⟨⟨hq, h1⟩, h2⟩
      refine ⟨hq, ?_⟩
      rintro ⟨hmem, hden⟩
      rcases List.mem_cons.mp hmem with rfl | hmem
      · exact h1 ⟨rfl, hden⟩
      · exact h2 ⟨hmem, hden⟩
    · rintro ⟨hq, h⟩
      refine ⟨⟨hq, ?_⟩, ?_⟩
      · rintro ⟨rfl, hden⟩
        exact h ⟨List.mem_cons_self _ _, hden⟩
      · rintro ⟨hmem, hden⟩
        exact h ⟨List.mem_cons_of_mem _ hmem, hden⟩

theorem Clean_of_long (denied : String → Bool) (s : Snapshots) (h : 60 < s.paths.length) :
    Clean denied s
      = ⟨[], (s.paths.drop 1).foldl (removeFile denied) s.files,
          s.removals ++ s.paths.drop 1⟩ := by
  simp [Clean, h]

/-- C8 as stated fails: in a registry of 61 paths whose first two entries are the same
path, `Clean` calls `fs.Remove` on the path at index 0 and the file is gone. -/
theorem clean_removes_repeated_first_path :
    60 < repeatedFirst.paths.length ∧
      repeatedFirst.paths[0]? = some (snapshotPath 1) ∧
      snapshotPath 1 ∈ repeatedFirst.files ∧
      snapshotPath 1 ∈ (Clean (fun _ => false) repeatedFirst).removals ∧
      snapshotPath 1 ∉ (Clean (fun _ => false) repeatedFirst).files := by
  have hlen : 60 < repeatedFirst.paths.length := by
    decide
  have hmem : snapshotPath 1 ∈ repeatedFirst.paths.drop 1 := by
    simp [repeatedFirst]
  refine ⟨hlen, by simp [repeatedFirst], by simp [repeatedFirst], ?_, ?_⟩
  · rw [Clean_of_long _ _ hlen]
    exact List.mem_append_right _ hmem
  · rw [Clean_of_long _ _ hlen]
    intro hin
    exact ((mem_foldl_removeFile _ _ _ _).mp hin).2 ⟨hmem, rfl⟩

/-- C8 amended: with at most 60 paths `Clean` changes nothing and calls `fs.Remove` on
nothing; with more than 60 it calls `fs.Remove` on exactly the paths at index 1 onward,
in order, whatever the earlier calls returned, leaves the registry empty, removes every
such path the filesystem does not deny, and keeps or lacks every other file as before;
the path at index 0 is among those kept provided it does not occur again at a later
index. -/
theorem clean_spec (denied : String → Bool) (s : Snapshots) :
    (s.paths.length ≤ 60 → Clean denied s = s) ∧
      (60 < s.paths.length →
        (Clean denied s).removals = s.removals ++ s.paths.drop 1 ∧
        (Clean denied s).paths = [] ∧
        (∀ q ∈ s.paths.drop 1, denied q = false → q ∉ (Clean denied s).files) ∧
        (∀ q : String, q ∉ s.paths.drop 1 →
          (q ∈ (Clean denied s).files ↔ q ∈ s.files)) ∧
        (∀ p0 : String, s.paths[0]? = some p0 → p0 ∉ s.paths.drop 1 →
          (p0 ∈ (Clean denied s).files ↔ p0 ∈ s.files))) := by
  constructor
  · intro h
    have : ¬ 60 < s.paths.length := by omega
    simp [Clean, this]
  · intro h
    rw [Clean_of_long denied s h]
    have hkeep : ∀ q : String, q ∉ s.paths.drop 1 →
        (q ∈ (s.paths.drop 1).foldl (removeFile denied) s.files ↔ q ∈ s.files) := by
      intro q hq
      rw [mem_foldl_removeFile]
      constructor
      · exact fun hh => hh.1
      · exact fun hh => ⟨hh, fun hc => hq hc.1⟩
    refine ⟨rfl, rfl, ?_, hkeep, fun p0 _ hp0 => hkeep p0 hp0⟩
    intro q hq hden hin
    exact ((mem_foldl_removeFile _ _ _ _).mp hin).2 ⟨hq, hden⟩

/-- C8 amended, at the registry the first 61 ticks leave before `Clean` runs. -/
theorem clean_spec_witness :
    60 < (ticksUpTo 61).length ∧
      (Clean (fun _ => false)
        ⟨(ticksUpTo 61).map snapshotPath, (ticksUpTo 61).map snapshotPath, []⟩).paths = [] ∧
      (Clean (fun _ => false)
        ⟨(ticksUpTo 61).map snapshotPath, (ticksUpTo 61).map snapshotPath, []⟩).removals
        = [] ++ ((ticksUpTo 61).map snapshotPath).drop 1 :=
  ⟨by decide,
    ((clean_spec (fun _ => false)
      ⟨(ticksUpTo 61).map snapshotPath, (ticksUpTo 61).map snapshotPath, []⟩).2
        (by decide)).2.1,
    ((clean_spec (fun _ => false)
      ⟨(ticksUpTo 61).map snapshotPath, (ticksUpTo 61).map snapshotPath, []⟩).2
        (by decide)).1⟩

set_option maxRecDepth 1000000 in
/-- C9 fails on the code: from an empty directory and an empty registry, 121 cycles of
`BackUp` then `Clean` at the pairwise distinct Unix times 1 to 121, every call
succeeding, leave 61 snapshot files in the directory, one more than the threshold. -/
theorem backup_cycles_exceed_threshold :
    (ticksUpTo 121).Nodup ∧
      (BackUpInterval (fun _ => false) (ticksUpTo 121) noSnapshots).files.length = 61 ∧
      (BackUpInterval (fun _ => false) (ticksUpTo 121) noSnapshots).paths.length = 60 := by
  decide!

/-! ## Overlapping calls of Push: claim C10 -/

theorem Push_eq_read_write (t : Table) (key : String) (d : Value) :
    Push t key d = pushWrite t key (pushRead t key d) :=
  rfl

theorem stepAt_waiting {key : String} {i : Nat} {t : Table} {cs : List Caller} {v : Value}
    (h : cs[i]? = some ⟨v, .waiting⟩) :
    stepAt key i t cs = (t, cs.set i ⟨v, .holding (pushRead t key v)⟩) := by
  simp [stepAt, h]

theorem stepAt_holding {key : String} {i : Nat} {t : Table} {cs : List Caller} {v : Value}
    {s : Slice} (h : cs[i]? = some ⟨v, .holding s⟩) :
    stepAt key i t cs = ((pushWrite t key s).1, cs.set i ⟨v, .finished⟩) := by
  simp [stepAt, h]

theorem runSchedule_read_write {key : String} {i : Nat} {t : Table} {cs : List Caller}
    {v : Value} (rest : List Nat) (h : cs[i]? = some ⟨v, .waiting⟩) :
    runSchedule key (i :: i :: rest) t cs
      = runSchedule key rest (Push t key v).1 (cs.set i ⟨v, .finished⟩) := by
  have h2 : (cs.set i ⟨v, .holding (pushRead t key v)⟩)[i]?
      = some ⟨v, .holding (pushRead t key v)⟩ := by
    rw [List.getElem?_set_self', h]
    rfl
  rw [runSchedule, stepAt_waiting h]
  simp only
  rw [runSchedule, stepAt_holding h2]
  simp only [List.set_set, Push]

theorem Push_ne_nilMap {t : Table} (key : String) (d : Value) (h : t ≠ Table.nilMap) :
    (Push t key d).1 ≠ Table.nilMap ∧
      (Get (Push t key d).1 key).toList.length = (Get t key).toList.length + 1 := by
  cases t with
  | nilMap => exact absurd rfl h
  | map e =>
    constructor
    · simp [Push_map]
    · rw [Get_Push_map_same]
      simp [Slice.toList]

theorem runSchedule_oneAfterAnother (key : String) (order : List Nat) :
    ∀ (t : Table) (cs : List Caller), t ≠ Table.nilMap → order.Nodup →
      (∀ i ∈ order, ∃ v : Value, cs[i]? = some ⟨v, .waiting⟩) →
      (Get (runSchedule key (oneAfterAnother order) t cs).1 key).toList.length
          = (Get t key).toList.length + order.length ∧
        (runSchedule key (oneAfterAnother order) t cs).2.length = cs.length ∧
        (∀ i ∈ order, ∃ v : Value,
          (runSchedule key (oneAfterAnother order) t cs).2[i]? = some ⟨v, .finished⟩) ∧
        (∀ j : Nat, j ∉ order →
          (runSchedule key (oneAfterAnother order) t cs).2[j]? = cs[j]?) := by
  induction order with
  | nil =>
    intro t cs _ _ _
    simp [oneAfterAnother, runSchedule]
  | cons i rest ih =>
    intro t cs ht hnd hw
    obtain ⟨hi, hrest⟩ := List.nodup_cons.mp hnd
    obtain ⟨v, hv⟩ := hw i (List.mem_cons_self i rest)
    have hlt : i < cs.length := by
      rcases Nat.lt_or_ge i cs.length with hlt | hge
      · exact hlt
      · rw [List.getElem?_eq_none hge] at hv
        exact absurd hv (by simp)
    have hrun : runSchedule key (oneAfterAnother (i :: rest)) t cs
        = runSchedule key (oneAfterAnother rest) (Push t key v).1
            (cs.set i ⟨v, .finished⟩) := by
      simp only [oneAfterAnother]
      exact runSchedule_read_write _ hv
    obtain ⟨hne, hlen⟩ := Push_ne_nilMap key v ht
    have hw2 : ∀ j ∈ rest, ∃ w : Value,
        (cs.set i ⟨v, .finished⟩)[j]? = some ⟨w, .waiting⟩ := by
      intro j hj
      have hij : i ≠ j := fun hq => hi (hq ▸ hj)
      rw [List.getElem?_set_ne hij]
      exact hw j (List.mem_cons_of_mem i hj)
    obtain ⟨h1, h2, h3, h4⟩ := ih (Push t key v).1 (cs.set i ⟨v, .finished⟩) hne hrest hw2
    rw [hrun]
    refine ⟨?_, ?_, ?_, ?_⟩
    · rw [h1, hlen, List.length_cons]
      omega
    · rw [h2, List.length_set]
    · intro j hj
      rcases List.mem_cons.mp hj with rfl | hj
      · refine ⟨v, ?_⟩
        rw [h4 j hi, List.getElem?_set_self hlt]
      · exact h3 j hj
    · intro j hj
      have hji : i ≠ j := fun hq => hj (hq ▸ List.mem_cons_self i rest)
      have hjr : j ∉ rest := fun hq => hj (List.mem_cons_of_mem i hq)
      rw [h4 j hjr, List.getElem?_set_ne hji]

/-- C10 as stated fails: two calls of `Push` on `users` of the empty table, in the
interleaving read, read, write, write, are both over and leave one entry, where the
initial length plus the number of calls is two; and on the nil map one call alone
leaves no entry. -/
theorem interleaved_pushes_lose_entry :
    (Get (runSchedule "users" [0, 1, 0, 1] emptyTable (callers [userA, userB])).1
        "users").toList.length = 1 ∧
      (runSchedule "users" [0, 1, 0, 1] emptyTable (callers [userA, userB])).2.map
        (fun c => c.phase.isFinished) = [true, true] ∧
      (Get emptyTable "users").toList.length + (callers [userA, userB]).length = 2 ∧
      (Get (runSchedule "users" (oneAfterAnother [0]) Table.nilMap (callers [userA])).1
        "users").toList.length = 0 := by
  decide

/-- C10 amended: for every table that is not the nil map, every key and every number
of calls of `Push` on that key, in every interleaving in which the calls run one after
another in some order, the write of each right after its read, every call is over at
the end and the final length of the sequence under the key is its initial length plus
the number of calls. -/
theorem serial_pushes_keep_every_entry (key : String) (t : Table) (values : List Value)
    (order : List Nat) (ht : t ≠ Table.nilMap) (hnd : order.Nodup)
    (hall : ∀ i : Nat, i ∈ order ↔ i < values.length) :
    (Get (runSchedule key (oneAfterAnother order) t (callers values)).1 key).toList.length
        = (Get t key).toList.length + values.length ∧
      ∀ c ∈ (runSchedule key (oneAfterAnother order) t (callers values)).2,
        c.phase.isFinished = true := by
  have hlen : order.length = values.length := by
    have hperm : order.Perm (List.range values.length) :=
      (List.perm_ext_iff_of_nodup hnd (List.nodup_range _)).mpr
        (fun i => by rw [hall i, List.mem_range])
    rw [hperm.length_eq, List.length_range]
  have hw : ∀ i ∈ order, ∃ v : Value, (callers values)[i]? = some ⟨v, .waiting⟩ := by
    intro i hi
    have hlt : i < values.length := (hall i).mp hi
    exact ⟨values[i], by simp [callers, List.getElem?_map, List.getElem?_eq_getElem hlt]⟩
  obtain ⟨h1, h2, h3, _⟩ :=
    runSchedule_oneAfterAnother key order t (callers values) ht hnd hw
  refine ⟨by rw [h1, hlen], ?_⟩
  intro c hc
  obtain ⟨j, hj⟩ := List.mem_iff_getElem?.mp hc
  have hjlt : j < values.length := by
    rcases Nat.lt_or_ge j values.length with hlt | hge
    · exact hlt
    · have : (runSchedule key (oneAfterAnother order) t (callers values)).2.length ≤ j := by
        rw [h2]; simpa [callers] using hge
      rw [List.getElem?_eq_none this] at hj
      exact absurd hj (by simp)
  obtain ⟨v, hv⟩ := h3 j ((hall j).mpr hjlt)
  rw [hv] at hj
  cases hj
  rfl

/-- C10 amended, at three calls on `users` of the empty table that run in the order
third, first, second. -/
theorem serial_pushes_keep_every_entry_witness :
    emptyTable ≠ Table.nilMap ∧ [2, 0, 1].Nodup ∧
      (∀ i : Nat, i ∈ [2, 0, 1] ↔ i < [userA, userB, noId].length) ∧
      (Get (runSchedule "users" (oneAfterAnother [2, 0, 1]) emptyTable
        (callers [userA, userB, noId])).1 "users").toList.length
        = (Get emptyTable "users").toList.length + [userA, userB, noId].length :=
  ⟨by simp [emptyTable], by decide, by intro i; simp; omega,
    (serial_pushes_keep_every_entry "users" emptyTable [userA, userB, noId] [2, 0, 1]
      (by simp [emptyTable]) (by decide) (by intro i; simp; omega)).1⟩

end Cloudbase
